/-
Verification of the cash-base knapsack solver
(src/app/services/knapsack_solver.py) and of the CashCalculator
defaulting logic (src/app/services/cash_calculator.py, src/app/config.py).

Modelling conventions:
  * Python dicts {denomination: count} become association lists
    `List (Nat × Nat)` in insertion order (Python dicts preserve it).
  * The DP arrays dp/prev (indexed 0..MAX) become total functions out of Nat;
    cells above MAX are never touched, matching the array bounds.
  * The sentinel NEG = -10**18 marking an unreachable sum becomes `none`:
    reachable dp values are menudo contributions, always ≥ 0, so they can
    never collide with the sentinel.
  * The two while-loops (binary decomposition, solution reconstruction)
    are given explicit fuel so that they are structural recursions; the
    fuel chosen at the call sites dominates the number of iterations the
    Python loop performs (each iteration strictly decreases the tracked
    quantity), so the embedded functions agree with the source loops.
  * Deposit counts (`conteo_consignar`) are integers, exactly as in the
    source, where `todas_denoms[d] - conteo_base[d]` is a Python int and
    may in principle be negative.
-/
import Mathlib

namespace CierreCaja

/-! ## KnapsackSolver.descomponer_binario -/

/-- The while-loop of `descomponer_binario`:
`while k <= restante: partes.append(k); restante -= k; k *= 2`,
then `if restante > 0: partes.append(restante)`.
`fuel` bounds the iteration count; since `k ≥ 1`, `restante` strictly
decreases each iteration, so `fuel = restante` at the top call suffices. -/
def descomponerAux : Nat → Nat → Nat → List Nat
  | 0, _, restante => if 0 < restante then [restante] else []
  | fuel + 1, k, restante =>
      if 1 ≤ k ∧ k ≤ restante then
        k :: descomponerAux fuel (k * 2) (restante - k)
      else if 0 < restante then [restante] else []

/-- `KnapsackSolver.descomponer_binario(valor, cantidad)`; the `valor`
argument is unused in the source body. -/
def descomponer_binario (_valor cantidad : Nat) : List Nat :=
  descomponerAux cantidad 1 cantidad

/-! ## KnapsackSolver.resolver: items and DP table -/

/-- One synthetic batch item `(valor_total, aporte_menudo, denom, k)`. -/
structure Item where
  valorTotal : Nat
  aporteMenudo : Nat
  denom : Nat
  k : Nat
deriving DecidableEq, Repr

/-- `aporte_menudo = valor_total if denom <= umbral_menudo else 0`. -/
def aporteDe (umbral denom valorTotal : Nat) : Nat :=
  if denom ≤ umbral then valorTotal else 0

/-- The item-preparation loop of `resolver` (skips counts ≤ 0, binary
decomposition, one item per batch), in dict order. -/
def mkItems (umbral : Nat) (todasDenoms : List (Nat × Nat)) : List Item :=
  todasDenoms.flatMap fun p =>
    if p.2 = 0 then []
    else (descomponer_binario p.1 p.2).map fun k =>
      { valorTotal := p.1 * k
        aporteMenudo := aporteDe umbral p.1 (p.1 * k)
        denom := p.1
        k := k }

/-- The two parallel tables: `dp s` is `none` exactly when `dp[s] == NEG`,
`prev s` holds the backtracking entry `(s_prev, denom, k)`. -/
structure DPState where
  dp : Nat → Option Nat
  prev : Nat → Option (Nat × Nat × Nat)

/-- `dp = [NEG]*(MAX+1); dp[0] = 0; prev = [None]*(MAX+1)`. -/
def initState : DPState :=
  ⟨fun s => if s = 0 then some 0 else none, fun _ => none⟩

/-- `cand > dp[s]`: any candidate beats the sentinel NEG. -/
def mejora (old : Option Nat) (cand : Nat) : Bool :=
  match old with
  | none => true
  | some x => decide (x < cand)

/-- One item's pass `for s in range(MAX, valor_total - 1, -1)`. Because `s`
descends and reads are at `s - valor_total < s`, every read sees the
pre-item table, so the pass is this simultaneous update. -/
def stepItem (MAX : Nat) (st : DPState) (it : Item) : DPState :=
  ⟨fun s =>
    if it.valorTotal ≤ s ∧ s ≤ MAX then
      (st.dp (s - it.valorTotal)).elim (st.dp s) fun m =>
        if mejora (st.dp s) (m + it.aporteMenudo) then some (m + it.aporteMenudo)
        else st.dp s
    else st.dp s,
   fun s =>
    if it.valorTotal ≤ s ∧ s ≤ MAX then
      (st.dp (s - it.valorTotal)).elim (st.prev s) fun m =>
        if mejora (st.dp s) (m + it.aporteMenudo) then
          some (s - it.valorTotal, it.denom, it.k)
        else st.prev s
    else st.prev s⟩

/-- `for valor_total, aporte_menudo, denom, k in items: ...` -/
def runDP (MAX : Nat) (items : List Item) : DPState :=
  items.foldl (stepItem MAX) initState

/-! ## Reconstruction and best reachable sum -/

/-- `_reconstruir_solucion`'s while-loop, returning the sequence of
`(denom, k)` uses along the backtracking chain. `fuel` bounds the
iterations; every `prev` entry written by the DP has `s_prev < s`, so
`fuel = suma_final` at the call site suffices. -/
def reconstruirLoop (prev : Nat → Option (Nat × Nat × Nat)) :
    Nat → Nat → List (Nat × Nat)
  | _, 0 => []
  | 0, _ + 1 => []
  | fuel + 1, s + 1 =>
      (prev (s + 1)).elim [] fun e => (e.2.1, e.2.2) :: reconstruirLoop prev fuel e.1

/-- `usado[denom] = usado.get(denom, 0) + k`, accumulated over the chain. -/
def usadoDe (events : List (Nat × Nat)) (d : Nat) : Nat :=
  ((events.filter fun e => e.1 == d).map Prod.snd).sum

/-- `mejor_s`: scan `s` from `MAX` down to `0` for the first reachable sum
(`none` models `mejor_s == -1`). -/
def mejorS (dp : Nat → Option Nat) : Nat → Option Nat
  | 0 => if (dp 0).isSome then some 0 else none
  | s + 1 => if (dp (s + 1)).isSome then some (s + 1) else mejorS dp s

/-- The 4-tuple returned by `resolver`. -/
structure AllocationResult where
  conteo_base : List (Nat × Nat)
  conteo_consignar : List (Nat × Int)
  restante : Nat
  exacto : Bool
deriving DecidableEq, Repr

/-- `KnapsackSolver(objetivo, umbral).resolver(todas_denoms)`. -/
def resolver (objetivo umbral : Nat) (todasDenoms : List (Nat × Nat)) :
    AllocationResult :=
  let MAX := objetivo
  let st := runDP MAX (mkItems umbral todasDenoms)
  if (st.dp MAX).isSome then
    let usado := usadoDe (reconstruirLoop st.prev MAX MAX)
    ⟨todasDenoms.map fun p => (p.1, usado p.1),
     todasDenoms.map fun p => (p.1, (p.2 : Int) - (usado p.1 : Int)),
     0, true⟩
  else
    (mejorS st.dp MAX).elim
      ⟨todasDenoms.map fun p => (p.1, 0),
       todasDenoms.map fun p => (p.1, (p.2 : Int)),
       objetivo, false⟩
      fun s =>
        let usado := usadoDe (reconstruirLoop st.prev s s)
        ⟨todasDenoms.map fun p => (p.1, usado p.1),
         todasDenoms.map fun p => (p.1, (p.2 : Int) - (usado p.1 : Int)),
         objetivo - s, false⟩

/-! ## Specification-side notions (feasible allocations) -/

/-- An allocation `b` (units of each denomination kept in the base) is
feasible for the inventory when it never exceeds the available count. -/
def Feasible (inv : List (Nat × Nat)) (b : Nat → Nat) : Prop :=
  ∀ p ∈ inv, b p.1 ≤ p.2

/-- Total monetary value of an allocation over the inventory's keys. -/
def valueOf (inv : List (Nat × Nat)) (b : Nat → Nat) : Nat :=
  (inv.map fun p => p.1 * b p.1).sum

/-- Value contributed by denominations `≤ umbral` (menudo). -/
def menudoOf (umbral : Nat) (inv : List (Nat × Nat)) (b : Nat → Nat) : Nat :=
  (inv.map fun p => if p.1 ≤ umbral then p.1 * b p.1 else 0).sum

/-- `sum(d * conteo_base[d])` of a result. -/
def baseSum (r : AllocationResult) : Nat :=
  (r.conteo_base.map fun p => p.1 * p.2).sum

/-- Menudo contribution of a result's base allocation. -/
def baseMenudo (umbral : Nat) (r : AllocationResult) : Nat :=
  (r.conteo_base.map fun p => if p.1 ≤ umbral then p.1 * p.2 else 0).sum

/-! ## CashCalculator defaulting (src/app/services/cash_calculator.py) -/

/-- `Config.BASE_OBJETIVO` default from src/app/config.py. -/
def configBaseObjetivo : Nat := 450000

/-- `Config.UMBRAL_MENUDO` default from src/app/config.py. -/
def configUmbralMenudo : Nat := 10000

/-- Python `x or default` on an `Optional[int]` argument: `None` and `0`
are falsy, any other non-negative int is truthy. -/
def pyOrDefault (x : Option Nat) (default : Nat) : Nat :=
  match x with
  | none => default
  | some n => if n = 0 then default else n

/-- The two scalar fields `CashCalculator.__init__` sets before calling the
solver. -/
structure CashCalculator where
  base_objetivo : Nat
  umbral_menudo : Nat

/-- `CashCalculator.__init__`:
`self.base_objetivo = base_objetivo or Config.BASE_OBJETIVO` etc. -/
def cashCalculatorInit (base_objetivo umbral_menudo : Option Nat) :
    CashCalculator :=
  ⟨pyOrDefault base_objetivo configBaseObjetivo,
   pyOrDefault umbral_menudo configUmbralMenudo⟩

/-! ## Auxiliary notions for the proofs -/

/-- `Completa s l`: each element of `l` is at most one more than `s` plus
the sum of the elements before it.  Lists with this property (starting
from `s = 0`) have sublists realizing every sum up to their total; the
binary decomposition produces such lists. -/
def Completa : Nat → List Nat → Prop
  | _, [] => True
  | s, x :: l => x ≤ s + 1 ∧ Completa (s + x) l

/-- Total monetary value of a selection of batch items. -/
def valSum (l : List Item) : Nat := (l.map Item.valorTotal).sum

/-- Total menudo contribution of a selection of batch items. -/
def apSum (l : List Item) : Nat := (l.map Item.aporteMenudo).sum

/-- Shape facts every item generated by `mkItems` satisfies when all
denominations are positive. -/
def GoodItem (umbral : Nat) (inv : List (Nat × Nat)) (it : Item) : Prop :=
  1 ≤ it.valorTotal ∧ it.valorTotal = it.denom * it.k ∧
    it.aporteMenudo = aporteDe umbral it.denom it.valorTotal ∧
    ∃ p ∈ inv, p.1 = it.denom

/-- Invariant of the DP tables after processing a list of items. -/
structure DPInv (MAX umbral : Nat) (inv : List (Nat × Nat))
    (items : List Item) (st : DPState) : Prop where
  dp_zero : st.dp 0 = some 0
  sound : ∀ s m, st.dp s = some m →
    ∃ sub, sub.Sublist items ∧ valSum sub = s ∧ apSum sub = m
  complete : ∀ sub, sub.Sublist items → valSum sub ≤ MAX →
    ∃ m, st.dp (valSum sub) = some m ∧ apSum sub ≤ m
  chain : ∀ s m, st.dp s = some m → 0 < s →
    ∃ s2 d k m2, st.prev s = some (s2, d, k) ∧ st.dp s2 = some m2 ∧
      s2 + d * k = s ∧ s2 < s ∧ m ≤ m2 + aporteDe umbral d (d * k) ∧
      ∃ p ∈ inv, p.1 = d

/-! ## Lemmas about the binary decomposition -/

theorem descomponerAux_sum :
    ∀ fuel k r, r ≤ fuel → 1 ≤ k → (descomponerAux fuel k r).sum = r := by
  intro fuel
  induction fuel with
  | zero =>
      intro k r hr _
      have : r = 0 := Nat.le_zero.mp hr
      subst this
      simp [descomponerAux]
  | succ n ih =>
      intro k r hr hk
      by_cases h : 1 ≤ k ∧ k ≤ r
      · have h1 : descomponerAux (n + 1) k r = k :: descomponerAux n (k * 2) (r - k) := by
          simp [descomponerAux, h]
        rw [h1, List.sum_cons, ih (k * 2) (r - k) (by omega) (by omega)]
        omega
      · have h1 : descomponerAux (n + 1) k r = if 0 < r then [r] else [] := by
          simp [descomponerAux, h]
        rw [h1]
        by_cases h2 : 0 < r <;> simp [h2]
        omega

theorem descomponerAux_pos :
    ∀ fuel k r, 1 ≤ k → ∀ x ∈ descomponerAux fuel k r, 1 ≤ x := by
  intro fuel
  induction fuel with
  | zero =>
      intro k r _ x hx
      by_cases h2 : 0 < r <;> simp [descomponerAux, h2] at hx
      omega
  | succ n ih =>
      intro k r hk x hx
      by_cases h : 1 ≤ k ∧ k ≤ r
      · rw [show descomponerAux (n + 1) k r = k :: descomponerAux n (k * 2) (r - k) by
            simp [descomponerAux, h]] at hx
        rcases List.mem_cons.mp hx with h1 | h1
        · omega
        · exact ih (k * 2) (r - k) (by omega) x h1
      · rw [show descomponerAux (n + 1) k r = if 0 < r then [r] else [] by
            simp [descomponerAux, h]] at hx
        by_cases h2 : 0 < r <;> simp [h2] at hx
        omega

theorem descomponer_binario_sum (v c : Nat) : (descomponer_binario v c).sum = c :=
  descomponerAux_sum c 1 c (Nat.le_refl c) (Nat.le_refl 1)

theorem descomponer_binario_pos (v c : Nat) :
    ∀ x ∈ descomponer_binario v c, 1 ≤ x :=
  descomponerAux_pos c 1 c (Nat.le_refl 1)

theorem completa_nil (s : Nat) : Completa s [] := trivial

theorem completa_cons (s y : Nat) (l : List Nat) :
    Completa s (y :: l) ↔ y ≤ s + 1 ∧ Completa (s + y) l := Iff.rfl

theorem completa_append_singleton (x : Nat) :
    ∀ (l : List Nat) (s : Nat),
      Completa s (l ++ [x]) ↔ Completa s l ∧ x ≤ s + l.sum + 1 := by
  intro l
  induction l with
  | nil =>
      intro s
      rw [List.nil_append, completa_cons]
      constructor
      · rintro ⟨h, -⟩
        refine ⟨trivial, ?_⟩
        simpa using h
      · rintro ⟨-, h⟩
        refine ⟨?_, trivial⟩
        simp at h
        omega
  | cons y t ih =>
      intro s
      rw [List.cons_append, completa_cons, completa_cons, ih (s + y), List.sum_cons]
      constructor
      · rintro ⟨h1, h2, h3⟩; exact ⟨⟨h1, h2⟩, by omega⟩
      · rintro ⟨⟨h1, h2⟩, h3⟩; exact ⟨h1, h2, by omega⟩

theorem completa_descomponerAux :
    ∀ fuel k r s, r ≤ fuel → 1 ≤ k → k ≤ s + 1 →
      Completa s (descomponerAux fuel k r) := by
  intro fuel
  induction fuel with
  | zero =>
      intro k r s hr _ _
      have : r = 0 := Nat.le_zero.mp hr
      subst this
      simp [descomponerAux, Completa]
  | succ n ih =>
      intro k r s hr hk hks
      by_cases h : 1 ≤ k ∧ k ≤ r
      · rw [show descomponerAux (n + 1) k r = k :: descomponerAux n (k * 2) (r - k) by
            simp [descomponerAux, h]]
        rw [completa_cons]
        exact ⟨hks, ih (k * 2) (r - k) (s + k) (by omega) (by omega) (by omega)⟩
      · rw [show descomponerAux (n + 1) k r = if 0 < r then [r] else [] by
            simp [descomponerAux, h]]
        by_cases h2 : 0 < r
        · rw [if_pos h2, completa_cons]
          exact ⟨by omega, trivial⟩
        · rw [if_neg h2]
          exact trivial

theorem completa_cover_aux :
    ∀ (n : Nat) (l : List Nat), l.length ≤ n → Completa 0 l →
      ∀ t, t ≤ l.sum → ∃ sub : List Nat, sub.Sublist l ∧ sub.sum = t := by
  intro n
  induction n with
  | zero =>
      intro l hl _ t ht
      have : l = [] := List.length_eq_zero.mp (by omega)
      subst this
      simp at ht
      exact ⟨[], List.Sublist.refl _, by simp [ht]⟩
  | succ n ih =>
      intro l hl hc t ht
      rcases List.eq_nil_or_concat l with h | ⟨l', x, h⟩
      · subst h
        simp at ht
        exact ⟨[], List.Sublist.refl _, by simp [ht]⟩
      · rw [List.concat_eq_append] at h
        subst h
        rw [completa_append_singleton] at hc
        obtain ⟨hcl, hx⟩ := hc
        rw [List.sum_append, List.sum_cons, List.sum_nil] at ht
        have hl' : l'.length ≤ n := by
          rw [List.length_append, List.length_cons, List.length_nil] at hl
          omega
        by_cases h : t ≤ l'.sum
        · obtain ⟨sub, hs, hsum⟩ := ih l' hl' hcl t h
          exact ⟨sub, hs.trans (List.sublist_append_left l' [x]), hsum⟩
        · obtain ⟨sub, hs, hsum⟩ := ih l' hl' hcl (t - x) (by omega)
          refine ⟨sub ++ [x], List.Sublist.append hs (List.Sublist.refl [x]), ?_⟩
          rw [List.sum_append, List.sum_cons, List.sum_nil, hsum]
          omega

theorem completa_cover (l : List Nat) :
    Completa 0 l → ∀ t, t ≤ l.sum →
      ∃ sub : List Nat, sub.Sublist l ∧ sub.sum = t :=
  completa_cover_aux l.length l (Nat.le_refl _)

theorem descomponer_cover (v c t : Nat) (h : t ≤ c) :
    ∃ sub : List Nat, sub.Sublist (descomponer_binario v c) ∧ sub.sum = t := by
  refine completa_cover _ ?_ t ?_
  · exact completa_descomponerAux c 1 c 0 (Nat.le_refl c) (Nat.le_refl 1) (by omega)
  · rw [descomponer_binario_sum]; exact h

theorem descomponerAux_length :
    ∀ fuel i r, r ≤ fuel →
      (descomponerAux fuel (2 ^ i) r).length =
        (Nat.log 2 (2 ^ i + r) - i) +
          (if 2 ^ i + r = 2 ^ Nat.log 2 (2 ^ i + r) then 0 else 1) := by
  have hpow : ∀ i : Nat, 1 ≤ 2 ^ i := fun i => Nat.one_le_two_pow
  intro fuel
  induction fuel with
  | zero =>
      intro i r hr
      have : r = 0 := Nat.le_zero.mp hr
      subst this
      simp [descomponerAux, Nat.log_pow]
  | succ n ih =>
      intro i r hr
      by_cases h : 1 ≤ 2 ^ i ∧ 2 ^ i ≤ r
      · rw [show descomponerAux (n + 1) (2 ^ i) r
              = 2 ^ i :: descomponerAux n (2 ^ i * 2) (r - 2 ^ i) by
            simp [descomponerAux, h]]
        rw [List.length_cons]
        rw [show (2 : Nat) ^ i * 2 = 2 ^ (i + 1) from (pow_succ 2 i).symm]
        rw [ih (i + 1) (r - 2 ^ i) (by omega)]
        have he : 2 ^ (i + 1) + (r - 2 ^ i) = 2 ^ i + r := by
          have : (2 : Nat) ^ (i + 1) = 2 ^ i + 2 ^ i := by
            rw [pow_succ]; omega
          omega
        rw [he]
        have hlog : i + 1 ≤ Nat.log 2 (2 ^ i + r) := by
          rw [← Nat.pow_le_iff_le_log (by omega) (by have := hpow i; omega)]
          have : (2 : Nat) ^ (i + 1) = 2 ^ i + 2 ^ i := by rw [pow_succ]; omega
          omega
        omega
      · have hr2 : r < 2 ^ i := by
          rcases Nat.lt_or_ge r (2 ^ i) with h1 | h1
          · exact h1
          · exact absurd ⟨hpow i, h1⟩ h
        rw [show descomponerAux (n + 1) (2 ^ i) r = if 0 < r then [r] else [] by
            simp [descomponerAux, h]]
        by_cases h2 : 0 < r
        · have hlog : Nat.log 2 (2 ^ i + r) = i := by
            refine Nat.log_eq_of_pow_le_of_lt_pow (by omega) ?_
            have : (2 : Nat) ^ (i + 1) = 2 ^ i + 2 ^ i := by rw [pow_succ]; omega
            omega
          rw [hlog]
          have hne : ¬(2 ^ i + r = 2 ^ i) := by omega
          simp [h2, hne]
        · have : r = 0 := by omega
          subst this
          simp [Nat.log_pow]

theorem descomponer_binario_length (v c : Nat) :
    (descomponer_binario v c).length =
      Nat.log 2 (c + 1) +
        (if c + 1 = 2 ^ Nat.log 2 (c + 1) then 0 else 1) := by
  have h := descomponerAux_length c 0 c (Nat.le_refl c)
  simpa [descomponer_binario, Nat.add_comm] using h

/-! ## Lemmas about the DP tables -/

theorem valSum_nil : valSum [] = 0 := rfl

theorem valSum_cons (it : Item) (l : List Item) :
    valSum (it :: l) = it.valorTotal + valSum l := by
  simp [valSum]

theorem valSum_append (l1 l2 : List Item) :
    valSum (l1 ++ l2) = valSum l1 + valSum l2 := by
  simp [valSum]

theorem valSum_singleton (it : Item) : valSum [it] = it.valorTotal := by
  simp [valSum]

theorem apSum_nil : apSum [] = 0 := rfl

theorem apSum_cons (it : Item) (l : List Item) :
    apSum (it :: l) = it.aporteMenudo + apSum l := by
  simp [apSum]

theorem apSum_append (l1 l2 : List Item) :
    apSum (l1 ++ l2) = apSum l1 + apSum l2 := by
  simp [apSum]

theorem apSum_singleton (it : Item) : apSum [it] = it.aporteMenudo := by
  simp [apSum]

theorem mkItems_good (umbral : Nat) (inv : List (Nat × Nat))
    (hpos : ∀ p ∈ inv, 1 ≤ p.1) :
    ∀ it ∈ mkItems umbral inv, GoodItem umbral inv it := by
  intro it hit
  rw [mkItems, List.mem_flatMap] at hit
  obtain ⟨p, hp, hit⟩ := hit
  by_cases h0 : p.2 = 0
  · rw [if_pos h0] at hit
    cases hit
  · rw [if_neg h0, List.mem_map] at hit
    obtain ⟨k, hk, rfl⟩ := hit
    have hk1 : 1 ≤ k := descomponer_binario_pos p.1 p.2 k hk
    have hp1 : 1 ≤ p.1 := hpos p hp
    exact ⟨Nat.mul_pos hp1 hk1, rfl, rfl, ⟨p, hp, rfl⟩⟩

theorem stepItem_dp (MAX : Nat) (st : DPState) (it : Item) (s : Nat) :
    (stepItem MAX st it).dp s =
      if it.valorTotal ≤ s ∧ s ≤ MAX then
        (st.dp (s - it.valorTotal)).elim (st.dp s) fun m =>
          if mejora (st.dp s) (m + it.aporteMenudo) then some (m + it.aporteMenudo)
          else st.dp s
      else st.dp s := rfl

theorem stepItem_prev (MAX : Nat) (st : DPState) (it : Item) (s : Nat) :
    (stepItem MAX st it).prev s =
      if it.valorTotal ≤ s ∧ s ≤ MAX then
        (st.dp (s - it.valorTotal)).elim (st.prev s) fun m =>
          if mejora (st.dp s) (m + it.aporteMenudo) then
            some (s - it.valorTotal, it.denom, it.k)
          else st.prev s
      else st.prev s := rfl

theorem stepItem_dp_mono (MAX : Nat) (st : DPState) (it : Item) (s m : Nat)
    (h : st.dp s = some m) :
    ∃ m', (stepItem MAX st it).dp s = some m' ∧ m ≤ m' := by
  rw [stepItem_dp]
  by_cases hg : it.valorTotal ≤ s ∧ s ≤ MAX
  · rw [if_pos hg]
    rcases hd : st.dp (s - it.valorTotal) with _ | m2
    · rw [Option.elim_none]
      exact ⟨m, h, Nat.le_refl m⟩
    · rw [Option.elim_some]
      by_cases hm : mejora (st.dp s) (m2 + it.aporteMenudo) = true
      · refine ⟨m2 + it.aporteMenudo, by rw [if_pos hm], ?_⟩
        rw [h] at hm
        simp [mejora] at hm
        omega
      · rw [if_neg hm]
        exact ⟨m, h, Nat.le_refl m⟩
  · rw [if_neg hg]
    exact ⟨m, h, Nat.le_refl m⟩

theorem dpInv_init (MAX umbral : Nat) (inv : List (Nat × Nat)) :
    DPInv MAX umbral inv [] initState := by
  refine ⟨rfl, ?_, ?_, ?_⟩
  · intro s m h
    by_cases hs : s = 0
    · subst hs
      have h0 : initState.dp 0 = some 0 := rfl
      rw [h0] at h
      injection h with h'
      subst h'
      exact ⟨[], List.Sublist.refl _, rfl, rfl⟩
    · have : initState.dp s = none := by
        simp [initState, hs]
      rw [this] at h
      cases h
  · intro sub hsub _
    have : sub = [] := List.sublist_nil.mp hsub
    subst this
    exact ⟨0, rfl, Nat.le_refl 0⟩
  · intro s m h hs
    have : initState.dp s = none := by
      simp [initState]
      omega
    rw [this] at h
    cases h

theorem dpInv_step (MAX umbral : Nat) (inv : List (Nat × Nat)) (items : List Item)
    (st : DPState) (it : Item) (hinv : DPInv MAX umbral inv items st)
    (hit : GoodItem umbral inv it) :
    DPInv MAX umbral inv (items ++ [it]) (stepItem MAX st it) := by
  obtain ⟨hv1, hvdk, hap, hdmem⟩ := hit
  have hsubext : ∀ sub : List Item, sub.Sublist items → sub.Sublist (items ++ [it]) :=
    fun sub h => h.trans (List.sublist_append_left items [it])
  constructor
  · rw [stepItem_dp, if_neg (by omega)]
    exact hinv.dp_zero
  · -- soundness
    intro s m h
    rw [stepItem_dp] at h
    by_cases hg : it.valorTotal ≤ s ∧ s ≤ MAX
    · rw [if_pos hg] at h
      rcases hd : st.dp (s - it.valorTotal) with _ | m2
      · rw [hd, Option.elim_none] at h
        obtain ⟨sub, h1, h2, h3⟩ := hinv.sound s m h
        exact ⟨sub, hsubext sub h1, h2, h3⟩
      · rw [hd, Option.elim_some] at h
        by_cases hm : mejora (st.dp s) (m2 + it.aporteMenudo) = true
        · rw [if_pos hm] at h
          injection h with hmeq
          obtain ⟨sub, h1, h2, h3⟩ := hinv.sound _ m2 hd
          refine ⟨sub ++ [it], List.Sublist.append h1 (List.Sublist.refl [it]), ?_, ?_⟩
          · rw [valSum_append, valSum_singleton, h2]
            omega
          · rw [apSum_append, apSum_singleton, h3]
            omega
        · rw [if_neg hm] at h
          obtain ⟨sub, h1, h2, h3⟩ := hinv.sound s m h
          exact ⟨sub, hsubext sub h1, h2, h3⟩
    · rw [if_neg hg] at h
      obtain ⟨sub, h1, h2, h3⟩ := hinv.sound s m h
      exact ⟨sub, hsubext sub h1, h2, h3⟩
  · -- completeness
    intro sub hsub hle
    rcases List.sublist_append_iff.mp hsub with ⟨l1, l2, rfl, hl1, hl2⟩
    have hl2' : l2 = [] ∨ l2 = [it] := by
      cases l2 with
      | nil => exact Or.inl rfl
      | cons x t =>
          have hx : x = it := by
            have := hl2.subset (List.mem_cons_self x t)
            simpa using this
          subst hx
          have hlen := hl2.length_le
          rw [List.length_cons, List.length_singleton] at hlen
          have ht : t = [] := List.length_eq_zero.mp (by omega)
          subst ht
          exact Or.inr rfl
    rcases hl2' with rfl | rfl
    · rw [List.append_nil] at hle ⊢
      obtain ⟨m, hm1, hm2⟩ := hinv.complete l1 hl1 hle
      obtain ⟨m', hm1', hle'⟩ := stepItem_dp_mono MAX st it _ m hm1
      exact ⟨m', hm1', Nat.le_trans hm2 hle'⟩
    · rw [valSum_append, valSum_singleton] at hle ⊢
      obtain ⟨m1, hm1, hm2⟩ := hinv.complete l1 hl1 (by omega)
      rw [stepItem_dp, if_pos (by omega : it.valorTotal ≤ valSum l1 + it.valorTotal ∧
            valSum l1 + it.valorTotal ≤ MAX)]
      rw [Nat.add_sub_cancel, hm1, Option.elim_some]
      by_cases hm : mejora (st.dp (valSum l1 + it.valorTotal)) (m1 + it.aporteMenudo) = true
      · rw [if_pos hm]
        refine ⟨m1 + it.aporteMenudo, rfl, ?_⟩
        rw [apSum_append, apSum_singleton]
        omega
      · rw [if_neg hm]
        rcases hx : st.dp (valSum l1 + it.valorTotal) with _ | x
        · rw [hx] at hm
          simp [mejora] at hm
        · rw [hx] at hm
          simp [mejora] at hm
          refine ⟨x, rfl, ?_⟩
          rw [apSum_append, apSum_singleton]
          omega
  · -- chain
    intro s m h hs
    have hprev := stepItem_prev MAX st it s
    rw [stepItem_dp] at h
    by_cases hg : it.valorTotal ≤ s ∧ s ≤ MAX
    · rw [if_pos hg] at h
      rw [if_pos hg] at hprev
      rcases hd : st.dp (s - it.valorTotal) with _ | m2
      · rw [hd, Option.elim_none] at h hprev
        obtain ⟨s2, d, k, m2', h1, h2, h3, h4, h5, h6⟩ := hinv.chain s m h hs
        obtain ⟨m2'', hmono, hle'⟩ := stepItem_dp_mono MAX st it s2 m2' h2
        exact ⟨s2, d, k, m2'', by rw [hprev]; exact h1, hmono, h3, h4, by omega, h6⟩
      · rw [hd, Option.elim_some] at h hprev
        by_cases hm : mejora (st.dp s) (m2 + it.aporteMenudo) = true
        · rw [if_pos hm] at h hprev
          injection h with hmeq
          obtain ⟨m2'', hmono, hle'⟩ := stepItem_dp_mono MAX st it _ m2 hd
          refine ⟨s - it.valorTotal, it.denom, it.k, m2'', hprev, hmono, ?_, ?_, ?_, hdmem⟩
          · omega
          · omega
          · rw [← hvdk, ← hap]
            omega
        · rw [if_neg hm] at h hprev
          obtain ⟨s2, d, k, m2', h1, h2, h3, h4, h5, h6⟩ := hinv.chain s m h hs
          obtain ⟨m2'', hmono, hle'⟩ := stepItem_dp_mono MAX st it s2 m2' h2
          exact ⟨s2, d, k, m2'', by rw [hprev]; exact h1, hmono, h3, h4, by omega, h6⟩
    · rw [if_neg hg] at h
      rw [if_neg hg] at hprev
      obtain ⟨s2, d, k, m2', h1, h2, h3, h4, h5, h6⟩ := hinv.chain s m h hs
      obtain ⟨m2'', hmono, hle'⟩ := stepItem_dp_mono MAX st it s2 m2' h2
      exact ⟨s2, d, k, m2'', by rw [hprev]; exact h1, hmono, h3, h4, by omega, h6⟩

theorem dpInv_run_aux (MAX umbral : Nat) (inv : List (Nat × Nat)) :
    ∀ (rest items : List Item) (st : DPState),
      DPInv MAX umbral inv items st →
      (∀ it ∈ rest, GoodItem umbral inv it) →
      DPInv MAX umbral inv (items ++ rest) (rest.foldl (stepItem MAX) st) := by
  intro rest
  induction rest with
  | nil =>
      intro items st h _
      simpa using h
  | cons it rest ih =>
      intro items st h hg
      have hstep := dpInv_step MAX umbral inv items st it h (hg it (List.mem_cons_self it rest))
      have := ih (items ++ [it]) (stepItem MAX st it) hstep
        (fun x hx => hg x (List.mem_cons_of_mem it hx))
      simpa [List.append_assoc] using this

theorem dpInv_run (MAX umbral : Nat) (inv : List (Nat × Nat))
    (hpos : ∀ p ∈ inv, 1 ≤ p.1) :
    DPInv MAX umbral inv (mkItems umbral inv) (runDP MAX (mkItems umbral inv)) := by
  have := dpInv_run_aux MAX umbral inv (mkItems umbral inv) [] initState
    (dpInv_init MAX umbral inv) (mkItems_good umbral inv hpos)
  simpa [runDP] using this

/-! ## Feasible allocations versus item selections -/

theorem sum_map_mul (a : Nat) : ∀ l : List Nat,
    (l.map fun k => a * k).sum = a * l.sum := by
  intro l
  induction l with
  | nil => simp
  | cons x t ih => simp [ih, Nat.mul_add]

theorem sublist_sum_le : ∀ (l1 l2 : List Nat), l1.Sublist l2 → l1.sum ≤ l2.sum := by
  intro l1 l2 h
  induction h with
  | slnil => exact Nat.le_refl 0
  | cons a _ ih => simp only [List.sum_cons]; omega
  | cons₂ a _ ih => simp only [List.sum_cons]; omega

theorem valueOf_cons (p : Nat × Nat) (inv : List (Nat × Nat)) (b : Nat → Nat) :
    valueOf (p :: inv) b = p.1 * b p.1 + valueOf inv b := by
  simp [valueOf]

theorem menudoOf_cons (umbral : Nat) (p : Nat × Nat) (inv : List (Nat × Nat))
    (b : Nat → Nat) :
    menudoOf umbral (p :: inv) b =
      (if p.1 ≤ umbral then p.1 * b p.1 else 0) + menudoOf umbral inv b := by
  simp [menudoOf]

theorem valueOf_congr (inv : List (Nat × Nat)) (b b' : Nat → Nat)
    (h : ∀ p ∈ inv, b p.1 = b' p.1) : valueOf inv b = valueOf inv b' := by
  unfold valueOf
  rw [List.map_congr_left]
  intro p hp
  rw [h p hp]

theorem menudoOf_congr (umbral : Nat) (inv : List (Nat × Nat)) (b b' : Nat → Nat)
    (h : ∀ p ∈ inv, b p.1 = b' p.1) :
    menudoOf umbral inv b = menudoOf umbral inv b' := by
  unfold menudoOf
  rw [List.map_congr_left]
  intro p hp
  rw [h p hp]

theorem mkItems_cons (umbral : Nat) (p : Nat × Nat) (inv : List (Nat × Nat)) :
    mkItems umbral (p :: inv) =
      (if p.2 = 0 then [] else (descomponer_binario p.1 p.2).map fun k =>
        { valorTotal := p.1 * k, aporteMenudo := aporteDe umbral p.1 (p.1 * k),
          denom := p.1, k := k }) ++ mkItems umbral inv := by
  simp [mkItems]

theorem feasible_to_sub (umbral : Nat) :
    ∀ (inv : List (Nat × Nat)) (b : Nat → Nat), Feasible inv b →
      ∃ sub : List Item, sub.Sublist (mkItems umbral inv) ∧
        valSum sub = valueOf inv b ∧ apSum sub = menudoOf umbral inv b := by
  intro inv
  induction inv with
  | nil =>
      intro b _
      exact ⟨[], List.Sublist.refl _, rfl, rfl⟩
  | cons p inv ih =>
      intro b hb
      obtain ⟨sub2, hs2, hv2, ha2⟩ := ih b (fun q hq => hb q (List.mem_cons_of_mem p hq))
      have hbp : b p.1 ≤ p.2 := hb p (List.mem_cons_self p inv)
      by_cases h0 : p.2 = 0
      · have hb0 : b p.1 = 0 := by omega
        refine ⟨sub2, ?_, ?_, ?_⟩
        · rw [mkItems_cons, if_pos h0, List.nil_append]
          exact hs2
        · rw [valueOf_cons, hb0, Nat.mul_zero, Nat.zero_add, hv2]
        · rw [menudoOf_cons, hb0, ha2, Nat.mul_zero]
          simp
      · obtain ⟨ks, hks, hksum⟩ := descomponer_cover p.1 p.2 (b p.1) hbp
        set f : Nat → Item := fun k =>
          { valorTotal := p.1 * k, aporteMenudo := aporteDe umbral p.1 (p.1 * k),
            denom := p.1, k := k } with hf
        refine ⟨ks.map f ++ sub2, ?_, ?_, ?_⟩
        · rw [mkItems_cons, if_neg h0]
          exact List.Sublist.append (List.Sublist.map f hks) hs2
        · rw [valSum_append, valueOf_cons, hv2]
          congr 1
          rw [valSum, List.map_map]
          rw [show (Item.valorTotal ∘ f) = fun k => p.1 * k from rfl]
          rw [sum_map_mul, hksum]
        · rw [apSum_append, menudoOf_cons, ha2]
          congr 1
          rw [apSum, List.map_map]
          rw [show (Item.aporteMenudo ∘ f) = fun k => aporteDe umbral p.1 (p.1 * k)
            from rfl]
          by_cases hu : p.1 ≤ umbral
          · rw [show (fun k => aporteDe umbral p.1 (p.1 * k)) = fun k => p.1 * k by
              funext k; simp [aporteDe, hu]]
            rw [sum_map_mul, hksum, if_pos hu]
          · rw [show (fun k => aporteDe umbral p.1 (p.1 * k)) = fun _ => (0 : Nat) by
              funext k; simp [aporteDe, hu]]
            rw [if_neg hu]
            simp

theorem sum_map_zero {A : Type} : ∀ l : List A, (l.map fun _ => (0 : Nat)).sum = 0 := by
  intro l
  induction l with
  | nil => rfl
  | cons x t ih => simpa using ih

theorem sub_to_feasible (umbral : Nat) :
    ∀ inv : List (Nat × Nat), (inv.map Prod.fst).Nodup →
      ∀ sub : List Item, sub.Sublist (mkItems umbral inv) →
        ∃ b : Nat → Nat, Feasible inv b ∧ valueOf inv b = valSum sub ∧
          menudoOf umbral inv b = apSum sub := by
  intro inv
  induction inv with
  | nil =>
      intro _ sub hsub
      have hnil : sub = [] := List.sublist_nil.mp (by simpa [mkItems] using hsub)
      subst hnil
      exact ⟨fun _ => 0, fun p hp => absurd hp (List.not_mem_nil p), rfl, rfl⟩
  | cons p inv ih =>
      intro hnd sub hsub
      rw [mkItems_cons] at hsub
      rcases List.sublist_append_iff.mp hsub with ⟨l1, l2, rfl, hl1, hl2⟩
      rw [List.map_cons, List.nodup_cons] at hnd
      have hpnotin : p.1 ∉ inv.map Prod.fst := hnd.1
      obtain ⟨b2, hb2, hv2, ha2⟩ := ih hnd.2 l2 hl2
      have hqne : ∀ q ∈ inv, q.1 ≠ p.1 := by
        intro q hq hcontra
        exact hpnotin (hcontra ▸ List.mem_map_of_mem Prod.fst hq)
      set f : Nat → Item := fun k =>
        { valorTotal := p.1 * k, aporteMenudo := aporteDe umbral p.1 (p.1 * k),
          denom := p.1, k := k } with hf
      -- every item selected from the head batches has the head shape
      have hshape : ∀ it ∈ l1, it.valorTotal = p.1 * it.k ∧
          it.aporteMenudo = aporteDe umbral p.1 (p.1 * it.k) := by
        intro it hit
        have hmem := hl1.subset hit
        by_cases h0 : p.2 = 0
        · rw [if_pos h0] at hmem
          cases hmem
        · rw [if_neg h0, List.mem_map] at hmem
          obtain ⟨k, _, rfl⟩ := hmem
          exact ⟨rfl, rfl⟩
      have hksle : (l1.map Item.k).sum ≤ p.2 := by
        by_cases h0 : p.2 = 0
        · rw [if_pos h0] at hl1
          have : l1 = [] := List.sublist_nil.mp hl1
          subst this
          simp
        · rw [if_neg h0] at hl1
          have h1 : (l1.map Item.k).Sublist
              (((descomponer_binario p.1 p.2).map f).map Item.k) :=
            List.Sublist.map Item.k hl1
          rw [List.map_map] at h1
          rw [show List.map (Item.k ∘ f) (descomponer_binario p.1 p.2)
              = descomponer_binario p.1 p.2 by
            rw [show Item.k ∘ f = id from rfl, List.map_id]] at h1
          have h2 := sublist_sum_le _ _ h1
          rw [descomponer_binario_sum] at h2
          exact h2
      have hval1 : valSum l1 = p.1 * (l1.map Item.k).sum := by
        rw [valSum, List.map_congr_left (fun it hit => (hshape it hit).1)]
        rw [show (fun it : Item => p.1 * it.k) = ((fun k => p.1 * k) ∘ Item.k) from rfl,
          ← List.map_map, sum_map_mul]
      have hap1 : apSum l1 = if p.1 ≤ umbral then p.1 * (l1.map Item.k).sum else 0 := by
        rw [apSum, List.map_congr_left (fun it hit => (hshape it hit).2)]
        by_cases hu : p.1 ≤ umbral
        · rw [if_pos hu]
          rw [show (fun it : Item => aporteDe umbral p.1 (p.1 * it.k))
              = ((fun k => p.1 * k) ∘ Item.k) by
            funext it; simp [aporteDe, hu]]
          rw [← List.map_map, sum_map_mul]
        · rw [if_neg hu]
          rw [show (fun it : Item => aporteDe umbral p.1 (p.1 * it.k))
              = (fun _ => (0 : Nat)) by
            funext it; simp [aporteDe, hu]]
          exact sum_map_zero l1
      refine ⟨fun d => if d = p.1 then (l1.map Item.k).sum else b2 d, ?_, ?_, ?_⟩
      · intro q hq
        rcases List.mem_cons.mp hq with rfl | hq2
        · simpa using hksle
        · simpa [hqne q hq2] using hb2 q hq2
      · rw [valueOf_cons, valSum_append,
          valueOf_congr inv _ b2 (fun q hq => by simp [hqne q hq]), hv2, hval1]
        simp
      · rw [menudoOf_cons, apSum_append,
          menudoOf_congr umbral inv _ b2 (fun q hq => by simp [hqne q hq]), ha2, hap1]
        simp

/-! ## Reconstruction, usado accumulation, and best-sum scan -/

theorem reconstruirLoop_spec (umbral : Nat) (inv : List (Nat × Nat)) (st : DPState)
    (hzero : st.dp 0 = some 0)
    (hchain : ∀ s m, st.dp s = some m → 0 < s →
      ∃ s2 d k m2, st.prev s = some (s2, d, k) ∧ st.dp s2 = some m2 ∧
        s2 + d * k = s ∧ s2 < s ∧ m ≤ m2 + aporteDe umbral d (d * k) ∧
        ∃ p ∈ inv, p.1 = d) :
    ∀ fuel S m, S ≤ fuel → st.dp S = some m →
      ((reconstruirLoop st.prev fuel S).map fun e => e.1 * e.2).sum = S ∧
      m ≤ ((reconstruirLoop st.prev fuel S).map fun e =>
        aporteDe umbral e.1 (e.1 * e.2)).sum ∧
      ∀ e ∈ reconstruirLoop st.prev fuel S, ∃ p ∈ inv, p.1 = e.1 := by
  intro fuel
  induction fuel with
  | zero =>
      intro S m hS hdp
      have hS0 : S = 0 := by omega
      subst hS0
      rw [hzero] at hdp
      injection hdp with h'
      subst h'
      exact ⟨rfl, Nat.le_refl 0, fun e he => absurd he (List.not_mem_nil e)⟩
  | succ fuel ih =>
      intro S m hS hdp
      rcases S with _ | s
      · rw [hzero] at hdp
        injection hdp with h'
        subst h'
        exact ⟨rfl, Nat.le_refl 0, fun e he => absurd he (List.not_mem_nil e)⟩
      · obtain ⟨s2, d, k, m2, hprev, hdp2, hsum, hlt, hle, hmem⟩ :=
          hchain (s + 1) m hdp (Nat.succ_pos s)
        have hred : reconstruirLoop st.prev (fuel + 1) (s + 1)
            = (d, k) :: reconstruirLoop st.prev fuel s2 := by
          simp [reconstruirLoop, hprev]
        obtain ⟨ih1, ih2, ih3⟩ := ih s2 m2 (by omega) hdp2
        refine ⟨?_, ?_, ?_⟩
        · rw [hred, List.map_cons, List.sum_cons, ih1]
          show d * k + s2 = s + 1
          omega
        · rw [hred, List.map_cons, List.sum_cons]
          show m ≤ aporteDe umbral d (d * k) +
            ((reconstruirLoop st.prev fuel s2).map fun e =>
              aporteDe umbral e.1 (e.1 * e.2)).sum
          omega
        · rw [hred]
          intro e he
          rcases List.mem_cons.mp he with rfl | he'
          · exact hmem
          · exact ih3 e he'

theorem usadoDe_nil (d : Nat) : usadoDe [] d = 0 := rfl

theorem usadoDe_cons (e : Nat × Nat) (events : List (Nat × Nat)) (d : Nat) :
    usadoDe (e :: events) d = (if e.1 = d then e.2 else 0) + usadoDe events d := by
  unfold usadoDe
  by_cases h : e.1 = d
  · simp [List.filter_cons, h]
  · simp [List.filter_cons, h]

theorem sum_map_add {A : Type} (f g : A → Nat) : ∀ l : List A,
    (l.map fun x => f x + g x).sum = (l.map f).sum + (l.map g).sum := by
  intro l
  induction l with
  | nil => rfl
  | cons x t ih =>
      simp only [List.map_cons, List.sum_cons, ih]
      omega

theorem sum_if_key_zero (d : Nat) (w : Nat → Nat) :
    ∀ inv : List (Nat × Nat), d ∉ inv.map Prod.fst →
      (inv.map fun p => if p.1 = d then w p.1 else 0).sum = 0 := by
  intro inv
  induction inv with
  | nil => intro _; rfl
  | cons p t ih =>
      intro h
      rw [List.map_cons, List.mem_cons] at h
      push_neg at h
      rw [List.map_cons, List.sum_cons, if_neg (fun hc => h.1 hc.symm), ih h.2]

theorem sum_if_key (d : Nat) (w : Nat → Nat) :
    ∀ inv : List (Nat × Nat), (inv.map Prod.fst).Nodup → (∃ p ∈ inv, p.1 = d) →
      (inv.map fun p => if p.1 = d then w p.1 else 0).sum = w d := by
  intro inv
  induction inv with
  | nil =>
      rintro _ ⟨p, hp, -⟩
      exact absurd hp (List.not_mem_nil p)
  | cons p t ih =>
      rintro hnd ⟨q, hq, hqd⟩
      rw [List.map_cons, List.nodup_cons] at hnd
      rw [List.map_cons, List.sum_cons]
      by_cases hpd : p.1 = d
      · rw [if_pos hpd, hpd]
        have hzero : (t.map fun p => if p.1 = d then w p.1 else 0).sum = 0 :=
          sum_if_key_zero d w t (hpd ▸ hnd.1)
        rw [hzero, Nat.add_zero]
      · rw [if_neg hpd]
        rcases List.mem_cons.mp hq with rfl | hq'
        · exact absurd hqd hpd
        · rw [ih hnd.2 ⟨q, hq', hqd⟩]
          omega

theorem usado_keys_sum (c : Nat → Nat) (inv : List (Nat × Nat))
    (hnd : (inv.map Prod.fst).Nodup) :
    ∀ events : List (Nat × Nat), (∀ e ∈ events, ∃ p ∈ inv, p.1 = e.1) →
      (inv.map fun p => c p.1 * usadoDe events p.1).sum
        = (events.map fun e => c e.1 * e.2).sum := by
  intro events
  induction events with
  | nil =>
      intro _
      rw [show (inv.map fun p => c p.1 * usadoDe [] p.1)
          = inv.map fun _ => (0 : Nat) by
        apply List.map_congr_left
        intro p _
        rw [usadoDe_nil, Nat.mul_zero]]
      rw [sum_map_zero]
      rfl
  | cons e events ih =>
      intro hmem
      have h1 : (inv.map fun p => c p.1 * usadoDe (e :: events) p.1)
          = inv.map fun p =>
              (if p.1 = e.1 then c p.1 * e.2 else 0) + c p.1 * usadoDe events p.1 := by
        apply List.map_congr_left
        intro p _
        rw [usadoDe_cons, Nat.mul_add]
        congr 1
        by_cases h : e.1 = p.1
        · rw [if_pos h, if_pos h.symm]
        · rw [if_neg h, if_neg (fun hc => h hc.symm), Nat.mul_zero]
      rw [h1, sum_map_add, ih (fun x hx => hmem x (List.mem_cons_of_mem e hx)),
        List.map_cons, List.sum_cons]
      congr 1
      exact sum_if_key e.1 (fun d => c d * e.2) inv hnd
        (hmem e (List.mem_cons_self e events))

theorem mejorS_some_spec (dp : Nat → Option Nat) :
    ∀ MAX s, mejorS dp MAX = some s →
      (dp s).isSome = true ∧ s ≤ MAX ∧
        ∀ t, t ≤ MAX → (dp t).isSome = true → t ≤ s := by
  intro MAX
  induction MAX with
  | zero =>
      intro s h
      rw [mejorS] at h
      by_cases h0 : (dp 0).isSome = true
      · rw [if_pos h0] at h
        injection h with h'
        subst h'
        exact ⟨h0, Nat.le_refl 0, fun t ht _ => ht⟩
      · rw [if_neg h0] at h
        cases h
  | succ n ih =>
      intro s h
      rw [mejorS] at h
      by_cases h0 : (dp (n + 1)).isSome = true
      · rw [if_pos h0] at h
        injection h with h'
        subst h'
        exact ⟨h0, Nat.le_refl _, fun t ht _ => ht⟩
      · rw [if_neg h0] at h
        obtain ⟨h1, h2, h3⟩ := ih s h
        refine ⟨h1, by omega, fun t ht hdp => ?_⟩
        rcases Nat.lt_or_ge t (n + 1) with h4 | h4
        · exact h3 t (by omega) hdp
        · have ht1 : t = n + 1 := by omega
          subst ht1
          exact absurd hdp h0

theorem mejorS_isSome (dp : Nat → Option Nat) (h0 : (dp 0).isSome = true) :
    ∀ MAX, (mejorS dp MAX).isSome = true := by
  intro MAX
  induction MAX with
  | zero => simp [mejorS, h0]
  | succ n ih =>
      rw [mejorS]
      by_cases h : (dp (n + 1)).isSome = true
      · simp [h]
      · simp [h, ih]

/-! ## Putting the branches of `resolver` together -/

theorem sum_map_pair (inv : List (Nat × Nat)) (u : Nat → Nat) (g : Nat → Nat → Nat) :
    ((inv.map fun p => (p.1, u p.1)).map fun q => g q.1 q.2).sum
      = (inv.map fun p => g p.1 (u p.1)).sum := by
  rw [List.map_map]
  rfl

theorem alloc_sums (umbral : Nat) (inv : List (Nat × Nat))
    (hnd : (inv.map Prod.fst).Nodup) (ev : List (Nat × Nat))
    (hmem : ∀ e ∈ ev, ∃ p ∈ inv, p.1 = e.1) :
    ((inv.map fun p => (p.1, usadoDe ev p.1)).map fun q => q.1 * q.2).sum
        = (ev.map fun e => e.1 * e.2).sum ∧
    ((inv.map fun p => (p.1, usadoDe ev p.1)).map fun q =>
        if q.1 ≤ umbral then q.1 * q.2 else 0).sum
      = (ev.map fun e => aporteDe umbral e.1 (e.1 * e.2)).sum := by
  constructor
  · rw [sum_map_pair inv (usadoDe ev) fun a b => a * b]
    exact usado_keys_sum (fun d => d) inv hnd ev hmem
  · rw [sum_map_pair inv (usadoDe ev) fun a b => if a ≤ umbral then a * b else 0]
    rw [show (inv.map fun p => if p.1 ≤ umbral then p.1 * usadoDe ev p.1 else 0)
        = inv.map fun p => (if p.1 ≤ umbral then p.1 else 0) * usadoDe ev p.1 by
      apply List.map_congr_left
      intro p _
      by_cases h : p.1 ≤ umbral <;> simp [h]]
    rw [usado_keys_sum (fun d => if d ≤ umbral then d else 0) inv hnd ev hmem]
    congr 1
    apply List.map_congr_left
    intro e _
    by_cases h : e.1 ≤ umbral <;> simp [aporteDe, h]

theorem recon_alloc (objetivo umbral S : Nat) (inv : List (Nat × Nat))
    (hnd : (inv.map Prod.fst).Nodup) (hpos : ∀ p ∈ inv, 1 ≤ p.1)
    (fuel : Nat) (hfuel : S ≤ fuel) (m0 : Nat)
    (hdpS : (runDP objetivo (mkItems umbral inv)).dp S = some m0) :
    ((inv.map fun p => (p.1,
        usadoDe (reconstruirLoop (runDP objetivo (mkItems umbral inv)).prev fuel S)
          p.1)).map fun q => q.1 * q.2).sum = S ∧
    m0 ≤ ((inv.map fun p => (p.1,
        usadoDe (reconstruirLoop (runDP objetivo (mkItems umbral inv)).prev fuel S)
          p.1)).map fun q => if q.1 ≤ umbral then q.1 * q.2 else 0).sum := by
  have hinv := dpInv_run objetivo umbral inv hpos
  obtain ⟨h1, h2, h3⟩ :=
    reconstruirLoop_spec umbral inv _ hinv.dp_zero hinv.chain fuel S m0 hfuel hdpS
  obtain ⟨hA, hB⟩ := alloc_sums umbral inv hnd _ h3
  exact ⟨hA.trans h1, by rw [hB]; exact h2⟩

theorem resolver_eq_exact (objetivo umbral : Nat) (inv : List (Nat × Nat))
    (hex : ((runDP objetivo (mkItems umbral inv)).dp objetivo).isSome = true) :
    resolver objetivo umbral inv =
      ⟨inv.map fun p => (p.1, usadoDe (reconstruirLoop
          (runDP objetivo (mkItems umbral inv)).prev objetivo objetivo) p.1),
       inv.map fun p => (p.1, (p.2 : Int) - (usadoDe (reconstruirLoop
          (runDP objetivo (mkItems umbral inv)).prev objetivo objetivo) p.1 : Int)),
       0, true⟩ := by
  simp only [resolver]
  rw [if_pos hex]

theorem resolver_eq_mejor (objetivo umbral : Nat) (inv : List (Nat × Nat))
    (hex : ¬ ((runDP objetivo (mkItems umbral inv)).dp objetivo).isSome = true)
    (S : Nat)
    (hS : mejorS (runDP objetivo (mkItems umbral inv)).dp objetivo = some S) :
    resolver objetivo umbral inv =
      ⟨inv.map fun p => (p.1, usadoDe (reconstruirLoop
          (runDP objetivo (mkItems umbral inv)).prev S S) p.1),
       inv.map fun p => (p.1, (p.2 : Int) - (usadoDe (reconstruirLoop
          (runDP objetivo (mkItems umbral inv)).prev S S) p.1 : Int)),
       objetivo - S, false⟩ := by
  simp only [resolver]
  rw [if_neg hex, hS, Option.elim_some]

theorem resolver_main (objetivo umbral : Nat) (inv : List (Nat × Nat))
    (hnd : (inv.map Prod.fst).Nodup) (hpos : ∀ p ∈ inv, 1 ≤ p.1) :
    ∃ S m0,
      S ≤ objetivo ∧
      (runDP objetivo (mkItems umbral inv)).dp S = some m0 ∧
      baseSum (resolver objetivo umbral inv) = S ∧
      (∀ t, t ≤ objetivo →
        ((runDP objetivo (mkItems umbral inv)).dp t).isSome = true → t ≤ S) ∧
      ((resolver objetivo umbral inv).exacto = true ↔ S = objetivo) ∧
      (resolver objetivo umbral inv).restante = objetivo - S ∧
      m0 ≤ baseMenudo umbral (resolver objetivo umbral inv) := by
  by_cases hex : ((runDP objetivo (mkItems umbral inv)).dp objetivo).isSome = true
  · obtain ⟨m0, hm0⟩ := Option.isSome_iff_exists.mp hex
    have hres := resolver_eq_exact objetivo umbral inv hex
    have hr := recon_alloc objetivo umbral objetivo inv hnd hpos objetivo
      (Nat.le_refl _) m0 hm0
    refine ⟨objetivo, m0, Nat.le_refl _, hm0, ?_, fun t ht _ => ht, ?_, ?_, ?_⟩
    · rw [hres]
      exact hr.1
    · rw [hres]
      simp
    · rw [hres]
      simp
    · rw [hres]
      exact hr.2
  · have h0 : ((runDP objetivo (mkItems umbral inv)).dp 0).isSome = true := by
      rw [(dpInv_run objetivo umbral inv hpos).dp_zero]
      rfl
    obtain ⟨S, hS⟩ := Option.isSome_iff_exists.mp (mejorS_isSome _ h0 objetivo)
    obtain ⟨hS1, hS2, hS3⟩ := mejorS_some_spec _ objetivo S hS
    obtain ⟨m0, hm0⟩ := Option.isSome_iff_exists.mp hS1
    have hres := resolver_eq_mejor objetivo umbral inv hex S hS
    have hr := recon_alloc objetivo umbral S inv hnd hpos S (Nat.le_refl _) m0 hm0
    have hSne : S ≠ objetivo := by
      intro hcontra
      subst hcontra
      exact hex hS1
    refine ⟨S, m0, hS2, hm0, ?_, hS3, ?_, ?_, ?_⟩
    · rw [hres]
      exact hr.1
    · rw [hres]
      constructor
      · intro hfalse
        cases hfalse
      · intro hcontra
        exact absurd hcontra hSne
    · rw [hres]
    · rw [hres]
      exact hr.2

/-! ## Lookups on the output association lists -/

theorem lookup_cons_eq {A : Type} (p : Nat × A) (t : List (Nat × A)) (d : Nat) :
    List.lookup d (p :: t) = if d == p.1 then some p.2 else List.lookup d t := by
  rcases p with ⟨k, v⟩
  rcases hb : (d == k) with _ | _ <;> simp [List.lookup, hb]

theorem lookup_map_pair {B : Type} (g : Nat × Nat → B) :
    ∀ (l : List (Nat × Nat)) (d c : Nat), List.lookup d l = some c →
      List.lookup d (l.map fun p => (p.1, g p)) = some (g (d, c)) := by
  intro l
  induction l with
  | nil =>
      intro d c h
      cases h
  | cons p t ih =>
      intro d c h
      rw [lookup_cons_eq] at h
      rw [List.map_cons, lookup_cons_eq]
      by_cases hb : (d == p.1) = true
      · rw [if_pos hb] at h
        injection h with h2
        have h1 : d = p.1 := by simpa using hb
        rw [if_pos hb]
        have hp : p = (d, c) := by
          rcases p with ⟨k, v⟩
          simp only [Prod.mk.injEq]
          exact ⟨h1.symm, h2⟩
        rw [hp]
      · rw [if_neg hb] at h
        rw [if_neg hb]
        exact ih d c h

/-! ## `dp[0] = 0` survives the whole run, unconditionally -/

theorem mkItems_ap_zero (umbral : Nat) (inv : List (Nat × Nat)) :
    ∀ it ∈ mkItems umbral inv, it.valorTotal = 0 → it.aporteMenudo = 0 := by
  intro it hit hv
  rw [mkItems, List.mem_flatMap] at hit
  obtain ⟨p, hp, hit⟩ := hit
  by_cases h0 : p.2 = 0
  · rw [if_pos h0] at hit
    cases hit
  · rw [if_neg h0, List.mem_map] at hit
    obtain ⟨k, hk, rfl⟩ := hit
    show aporteDe umbral p.1 (p.1 * k) = 0
    rw [show p.1 * k = 0 from hv]
    unfold aporteDe
    by_cases hu : p.1 ≤ umbral
    · rw [if_pos hu]
    · rw [if_neg hu]

theorem runDP_dp_zero (MAX : Nat) :
    ∀ items : List Item, (∀ it ∈ items, it.valorTotal = 0 → it.aporteMenudo = 0) →
      ∀ st : DPState, st.dp 0 = some 0 →
        (items.foldl (stepItem MAX) st).dp 0 = some 0 := by
  intro items
  induction items with
  | nil =>
      intro _ st h
      exact h
  | cons it t ih =>
      intro hap st h
      show (t.foldl (stepItem MAX) (stepItem MAX st it)).dp 0 = some 0
      apply ih (fun x hx => hap x (List.mem_cons_of_mem it hx))
      rw [stepItem_dp]
      by_cases hg : it.valorTotal ≤ 0 ∧ 0 ≤ MAX
      · rw [if_pos hg]
        have hv0 : it.valorTotal = 0 := by omega
        rw [hv0, Nat.sub_zero, h, Option.elim_some,
          hap it (List.mem_cons_self it t) hv0]
        rfl
      · rw [if_neg hg]
        exact h

theorem resolver_dp_zero (objetivo umbral : Nat) (inv : List (Nat × Nat)) :
    (runDP objetivo (mkItems umbral inv)).dp 0 = some 0 :=
  runDP_dp_zero objetivo (mkItems umbral inv) (mkItems_ap_zero umbral inv)
    initState rfl

/-! ## All-zero inventories -/

theorem mkItems_zero (umbral : Nat) : ∀ inv : List (Nat × Nat),
    (∀ p ∈ inv, p.2 = 0) → mkItems umbral inv = [] := by
  intro inv
  induction inv with
  | nil => intro _; rfl
  | cons p t ih =>
      intro h
      rw [mkItems_cons, if_pos (h p (List.mem_cons_self p t)), List.nil_append]
      exact ih (fun q hq => h q (List.mem_cons_of_mem p hq))

theorem mejorS_zero (dp : Nat → Option Nat) (h0 : (dp 0).isSome = true)
    (hnone : ∀ s, 0 < s → dp s = none) :
    ∀ MAX, mejorS dp MAX = some 0 := by
  intro MAX
  induction MAX with
  | zero => simp [mejorS, h0]
  | succ n ih =>
      rw [mejorS, hnone (n + 1) (Nat.succ_pos n)]
      simpa using ih

/-! ## The claims -/

/-- Claim C1: if some sub-multiset of the inventory reaches the target
exactly, `resolver` reports `exacto = true`; otherwise the value of the
returned base equals the largest value ≤ target attainable by any feasible
sub-multiset. -/
theorem claim_c1_exact_and_best (objetivo umbral : Nat) (inv : List (Nat × Nat))
    (hnd : (inv.map Prod.fst).Nodup) (hpos : ∀ p ∈ inv, 1 ≤ p.1) :
    ((∃ b, Feasible inv b ∧ valueOf inv b = objetivo) →
      (resolver objetivo umbral inv).exacto = true) ∧
    ((¬ ∃ b, Feasible inv b ∧ valueOf inv b = objetivo) →
      (∃ b, Feasible inv b ∧
          valueOf inv b = baseSum (resolver objetivo umbral inv)) ∧
        baseSum (resolver objetivo umbral inv) ≤ objetivo ∧
        ∀ b, Feasible inv b → valueOf inv b ≤ objetivo →
          valueOf inv b ≤ baseSum (resolver objetivo umbral inv)) := by
  obtain ⟨S, m0, hSle, hdpS, hbs, hmax, hiff, hrest, hmen⟩ :=
    resolver_main objetivo umbral inv hnd hpos
  have hinv := dpInv_run objetivo umbral inv hpos
  constructor
  · rintro ⟨b, hb, hval⟩
    obtain ⟨sub, hsub, hv, ha⟩ := feasible_to_sub umbral inv b hb
    have hvs : valSum sub = objetivo := by omega
    obtain ⟨m, hm, -⟩ := hinv.complete sub hsub (by omega)
    rw [hvs] at hm
    have hle2 : objetivo ≤ S := hmax objetivo (Nat.le_refl _) (by rw [hm]; rfl)
    exact hiff.mpr (by omega)
  · intro _
    refine ⟨?_, ?_, ?_⟩
    · obtain ⟨sub, hsub, hv, ha⟩ := hinv.sound S m0 hdpS
      obtain ⟨b, hbf, hbv, hbm⟩ := sub_to_feasible umbral inv hnd sub hsub
      exact ⟨b, hbf, by omega⟩
    · omega
    · intro b hbf hble
      obtain ⟨sub, hsub, hv, ha⟩ := feasible_to_sub umbral inv b hbf
      obtain ⟨m, hm, -⟩ := hinv.complete sub hsub (by omega)
      rw [hv] at hm
      have := hmax (valueOf inv b) hble (by rw [hm]; rfl)
      omega

/-- Witness for C1 at inventory {2:1, 1:3}, target 4, threshold 1: the
sub-multiset {2 ↦ 1, 1 ↦ 2} reaches 4 exactly, and the solver reports
`exacto = true`. -/
theorem claim_c1_witness : (resolver 4 1 [(2, 1), (1, 3)]).exacto = true :=
  (claim_c1_exact_and_best 4 1 [(2, 1), (1, 3)] (by decide) (by decide)).1
    ⟨fun d => if d = 2 then 1 else if d = 1 then 2 else 0,
      by unfold Feasible; decide, by decide⟩

/-- Claim C2 (evaluation at the failing input): for inventory
{2:1, 1:3}, target 4, threshold 1, the single shared `prev` table is
overwritten by a later batch, the backtracking chain uses the 2-unit batch
of denomination 1 twice, and the returned base takes 4 units of
denomination 1 although only 3 exist — the deposit count is -1. -/
theorem claim_c2_base_exceeds_inventory :
    (resolver 4 1 [(2, 1), (1, 3)]).conteo_base = [(2, 0), (1, 4)] ∧
    (resolver 4 1 [(2, 1), (1, 3)]).conteo_consignar = [(2, 1), (1, -1)] ∧
    List.lookup 1 (resolver 4 1 [(2, 1), (1, 3)]).conteo_base = some 4 ∧
    List.lookup 1 [((2 : Nat), (1 : Nat)), (1, 3)] = some 3 := by
  refine ⟨?_, ?_, ?_, ?_⟩ <;> rfl

/-- Claim C3: for every key of the input, looking the key up in the two
output maps gives counts with `base + deposit = input` (deposit counts are
integers). -/
theorem claim_c3_conservation (objetivo umbral : Nat) (inv : List (Nat × Nat))
    (d c : Nat) (hlook : List.lookup d inv = some c) :
    ∃ bc : Nat, ∃ dc : Int,
      List.lookup d (resolver objetivo umbral inv).conteo_base = some bc ∧
      List.lookup d (resolver objetivo umbral inv).conteo_consignar = some dc ∧
      (bc : Int) + dc = (c : Int) := by
  by_cases hex : ((runDP objetivo (mkItems umbral inv)).dp objetivo).isSome = true
  · rw [resolver_eq_exact objetivo umbral inv hex]
    exact ⟨_, _, lookup_map_pair _ inv d c hlook, lookup_map_pair _ inv d c hlook,
      by push_cast; ring⟩
  · have h00 : ((runDP objetivo (mkItems umbral inv)).dp 0).isSome = true := by
      rw [resolver_dp_zero objetivo umbral inv]
      rfl
    obtain ⟨S, hS⟩ := Option.isSome_iff_exists.mp (mejorS_isSome _ h00 objetivo)
    rw [resolver_eq_mejor objetivo umbral inv hex S hS]
    exact ⟨_, _, lookup_map_pair _ inv d c hlook, lookup_map_pair _ inv d c hlook,
      by push_cast; ring⟩

/-- Witness for C3 at inventory {2:2, 5:1}, target 5, threshold 2, key 2. -/
theorem claim_c3_witness :
    ∃ bc : Nat, ∃ dc : Int,
      List.lookup 2 (resolver 5 2 [(2, 2), (5, 1)]).conteo_base = some bc ∧
      List.lookup 2 (resolver 5 2 [(2, 2), (5, 1)]).conteo_consignar = some dc ∧
      (bc : Int) + dc = ((2 : Nat) : Int) :=
  claim_c3_conservation 5 2 [(2, 2), (5, 1)] 2 2 (by decide)

/-- Claim C4: the value of the returned base never exceeds the target. -/
theorem claim_c4_non_exceeding (objetivo umbral : Nat) (inv : List (Nat × Nat))
    (hnd : (inv.map Prod.fst).Nodup) (hpos : ∀ p ∈ inv, 1 ≤ p.1) :
    baseSum (resolver objetivo umbral inv) ≤ objetivo := by
  obtain ⟨S, m0, hSle, -, hbs, -, -, -, -⟩ := resolver_main objetivo umbral inv hnd hpos
  omega

/-- Witness for C4 at inventory {3:2, 5:1}, target 7, threshold 3. -/
theorem claim_c4_witness : baseSum (resolver 7 3 [(3, 2), (5, 1)]) ≤ 7 :=
  claim_c4_non_exceeding 7 3 [(3, 2), (5, 1)] (by decide) (by decide)

/-- Claim C5: `exacto = true` exactly when the base value equals the
target. -/
theorem claim_c5_exactness_iff (objetivo umbral : Nat) (inv : List (Nat × Nat))
    (hnd : (inv.map Prod.fst).Nodup) (hpos : ∀ p ∈ inv, 1 ≤ p.1) :
    (resolver objetivo umbral inv).exacto = true ↔
      baseSum (resolver objetivo umbral inv) = objetivo := by
  obtain ⟨S, m0, hSle, -, hbs, -, hiff, -, -⟩ := resolver_main objetivo umbral inv hnd hpos
  rw [hbs]
  exact hiff

/-- Witness for C5 at inventory {2:5}, target 9, threshold 1 (best sum is
8, so both sides are false). -/
theorem claim_c5_witness :
    (resolver 9 1 [(2, 5)]).exacto = true ↔ baseSum (resolver 9 1 [(2, 5)]) = 9 :=
  claim_c5_exactness_iff 9 1 [(2, 5)] (by decide) (by decide)

/-- Claim C6: the returned shortfall is `target - baseSum` (non-negative,
since `baseSum ≤ target`), and is zero exactly when the target was hit. -/
theorem claim_c6_shortfall (objetivo umbral : Nat) (inv : List (Nat × Nat))
    (hnd : (inv.map Prod.fst).Nodup) (hpos : ∀ p ∈ inv, 1 ≤ p.1) :
    ((resolver objetivo umbral inv).restante : Int)
        = (objetivo : Int) - (baseSum (resolver objetivo umbral inv) : Int) ∧
      ((resolver objetivo umbral inv).restante = 0 ↔
        baseSum (resolver objetivo umbral inv) = objetivo) := by
  obtain ⟨S, m0, hSle, -, hbs, -, -, hrest, -⟩ := resolver_main objetivo umbral inv hnd hpos
  constructor
  · rw [hbs, hrest]
    omega
  · rw [hbs, hrest]
    omega

/-- Witness for C6 at inventory {2:5}, target 11, threshold 2 (best sum is
10, shortfall 1). -/
theorem claim_c6_witness :
    ((resolver 11 2 [(2, 5)]).restante : Int)
        = ((11 : Nat) : Int) - (baseSum (resolver 11 2 [(2, 5)]) : Int) ∧
      ((resolver 11 2 [(2, 5)]).restante = 0 ↔
        baseSum (resolver 11 2 [(2, 5)]) = 11) :=
  claim_c6_shortfall 11 2 [(2, 5)] (by decide) (by decide)

/-- Claim C7: no feasible allocation with the same value as the returned
base has a strictly larger menudo contribution than the returned base.
(The returned base itself may overuse a denomination — see C2 — but its
menudo total still dominates every feasible alternative at that value.) -/
theorem claim_c7_menudo_optimality (objetivo umbral : Nat) (inv : List (Nat × Nat))
    (hnd : (inv.map Prod.fst).Nodup) (hpos : ∀ p ∈ inv, 1 ≤ p.1) :
    ∀ b, Feasible inv b →
      valueOf inv b = baseSum (resolver objetivo umbral inv) →
      menudoOf umbral inv b ≤ baseMenudo umbral (resolver objetivo umbral inv) := by
  obtain ⟨S, m0, hSle, hdpS, hbs, hmax, hiff, hrest, hmen⟩ :=
    resolver_main objetivo umbral inv hnd hpos
  have hinv := dpInv_run objetivo umbral inv hpos
  intro b hbf hbv
  obtain ⟨sub, hsub, hv, ha⟩ := feasible_to_sub umbral inv b hbf
  have hvs : valSum sub = S := by omega
  obtain ⟨m, hm, ham⟩ := hinv.complete sub hsub (by omega)
  rw [hvs] at hm
  have hmm : m = m0 := by
    rw [hm] at hdpS
    exact Option.some.inj hdpS
  omega

/-- Witness for C7 at inventory {5:1, 1:4}, target 6, threshold 1, with the
feasible allocation {5 ↦ 1, 1 ↦ 1} whose value is the achieved 6. -/
theorem claim_c7_witness :
    menudoOf 1 [(5, 1), (1, 4)] (fun d => if d = 5 then 1 else if d = 1 then 1 else 0)
      ≤ baseMenudo 1 (resolver 6 1 [(5, 1), (1, 4)]) :=
  claim_c7_menudo_optimality 6 1 [(5, 1), (1, 4)] (by decide) (by decide)
    (fun d => if d = 5 then 1 else if d = 1 then 1 else 0)
    (by unfold Feasible; decide) (by decide)

/-- Claim C8 (counterexample): with an all-zero inventory and target 0 the
solver reports `exacto = true` (the empty base hits the target 0 exactly),
not `exacto = false` as the claim demands for every non-negative target. -/
theorem claim_c8_counterexample_target_zero :
    ¬ ((resolver 0 10000 [(100, 0)]).exacto = false) := by
  decide

/-- Claim C8 as amended: with an all-zero inventory, the solver returns a
normal result with shortfall = target, an all-zero base and a deposit equal
to the input; `exacto` is `false` for positive targets and `true` for
target 0. -/
theorem claim_c8_amended_all_zero (objetivo umbral : Nat) (inv : List (Nat × Nat))
    (hz : ∀ p ∈ inv, p.2 = 0) :
    (resolver objetivo umbral inv).restante = objetivo ∧
    (resolver objetivo umbral inv).conteo_base = inv.map (fun p => (p.1, 0)) ∧
    (resolver objetivo umbral inv).conteo_consignar
      = inv.map (fun p => (p.1, (p.2 : Int))) ∧
    (resolver objetivo umbral inv).exacto = decide (objetivo = 0) := by
  have hmk : mkItems umbral inv = [] := mkItems_zero umbral inv hz
  have hrun : runDP objetivo (mkItems umbral inv) = initState := by
    rw [hmk]
    rfl
  rcases Nat.eq_zero_or_pos objetivo with h0 | h0
  · subst h0
    have hex : ((runDP 0 (mkItems umbral inv)).dp 0).isSome = true := by
      rw [hrun]
      rfl
    rw [resolver_eq_exact 0 umbral inv hex]
    refine ⟨rfl, ?_, ?_, rfl⟩
    · apply List.map_congr_left
      intro p _
      rfl
    · apply List.map_congr_left
      intro p _
      show (p.1, (p.2 : Int) - ((0 : Nat) : Int)) = (p.1, (p.2 : Int))
      simp
  · have hdpnone : ∀ s, 0 < s → (runDP objetivo (mkItems umbral inv)).dp s = none := by
      intro s hs
      rw [hrun]
      have hs0 : ¬ (s = 0) := by omega
      simp [initState, hs0]
    have hex : ¬ ((runDP objetivo (mkItems umbral inv)).dp objetivo).isSome = true := by
      rw [hdpnone objetivo h0]
      simp
    have h00 : ((runDP objetivo (mkItems umbral inv)).dp 0).isSome = true := by
      rw [resolver_dp_zero]
      rfl
    rw [resolver_eq_mejor objetivo umbral inv hex 0
      (mejorS_zero _ h00 hdpnone objetivo)]
    refine ⟨?_, ?_, ?_, ?_⟩
    · show objetivo - 0 = objetivo
      omega
    · apply List.map_congr_left
      intro p _
      rfl
    · apply List.map_congr_left
      intro p _
      show (p.1, (p.2 : Int) - ((0 : Nat) : Int)) = (p.1, (p.2 : Int))
      simp
    · show false = decide (objetivo = 0)
      rw [decide_eq_false (by omega)]

/-- Witness for the amended C8 at inventory {100: 0}, target 7. -/
theorem claim_c8_witness :
    (resolver 7 10 [(100, 0)]).restante = 7 ∧
    (resolver 7 10 [(100, 0)]).conteo_base
      = [((100 : Nat), (0 : Nat))].map (fun p => (p.1, 0)) ∧
    (resolver 7 10 [(100, 0)]).conteo_consignar
      = [((100 : Nat), (0 : Nat))].map (fun p => (p.1, (p.2 : Int))) ∧
    (resolver 7 10 [(100, 0)]).exacto = decide ((7 : Nat) = 0) :=
  claim_c8_amended_all_zero 7 10 [(100, 0)] (by decide)

/-- Claim C9 (counterexample): for count 8 the helper returns the 4 batches
[1, 2, 4, 1] (exactly what the repository's own test asserts), while
⌈log₂ 8⌉ = 3. -/
theorem claim_c9_counterexample_batch_count :
    ¬ ((descomponer_binario 50 8).length = Nat.clog 2 8) := by
  have h : Nat.clog 2 8 = 3 := by
    rw [show (8 : Nat) = 2 ^ 3 from rfl]
    exact Nat.clog_pow 2 3 (by omega)
  rw [h]
  decide

/-- Claim C9 as amended: for every count c > 0, the batches follow the
doubling-greedy structure, sum to c, and their number is
⌊log₂(c+1)⌋ when c+1 is a power of two and ⌊log₂(c+1)⌋ + 1 otherwise. -/
theorem claim_c9_amended_descomponer (v c : Nat) (hc : 0 < c) :
    (descomponer_binario v c).sum = c ∧
    (descomponer_binario v c).length =
      Nat.log 2 (c + 1) + (if c + 1 = 2 ^ Nat.log 2 (c + 1) then 0 else 1) :=
  ⟨descomponer_binario_sum v c, descomponer_binario_length v c⟩

/-- Witness for the amended C9 at count 8 (4 batches, 9 not a power of 2). -/
theorem claim_c9_witness :
    (descomponer_binario 50 8).sum = 8 ∧
    (descomponer_binario 50 8).length =
      Nat.log 2 9 + (if (9 : Nat) = 2 ^ Nat.log 2 9 then 0 else 1) :=
  claim_c9_amended_descomponer 50 8 (by decide)

/-- Claim C10: `CashCalculator.__init__` substitutes the configured
defaults when `base_objetivo` or `umbral_menudo` is `None` or `0` (Python
`or` treats both as falsy), so the solver target requested through
`CashCalculator` is never 0. -/
theorem claim_c10_defaulting (b u : Option Nat) :
    ((b = none ∨ b = some 0) →
      (cashCalculatorInit b u).base_objetivo = configBaseObjetivo) ∧
    ((u = none ∨ u = some 0) →
      (cashCalculatorInit b u).umbral_menudo = configUmbralMenudo) ∧
    (cashCalculatorInit b u).base_objetivo ≠ 0 := by
  refine ⟨?_, ?_, ?_⟩
  · rintro (rfl | rfl) <;> rfl
  · rintro (rfl | rfl) <;> rfl
  · rcases b with _ | n
    · simp [cashCalculatorInit, pyOrDefault, configBaseObjetivo]
    · by_cases hn : n = 0 <;>
        simp [cashCalculatorInit, pyOrDefault, configBaseObjetivo, hn]

/-- Witness for C10 at `base_objetivo = 0`, `umbral_menudo = None`. -/
theorem claim_c10_witness :
    ((some 0 = none ∨ some 0 = some 0) →
      (cashCalculatorInit (some 0) none).base_objetivo = configBaseObjetivo) ∧
    (((none : Option Nat) = none ∨ (none : Option Nat) = some 0) →
      (cashCalculatorInit (some 0) none).umbral_menudo = configUmbralMenudo) ∧
    (cashCalculatorInit (some 0) none).base_objetivo ≠ 0 :=
  claim_c10_defaulting (some 0) none

end CierreCaja
